import Mathlib

/-!
Verification of the GEPA ferroalloy-production gridding pipeline
(`gch4i/sector_code/2C2_ferroalloy_production.py` and `gch4i/utils.py`).

Floating-point quantities are embedded as exact rationals.  The IEEE special
values (NaN and the signed infinities) that the pandas expressions can
produce are modelled explicitly by the `FVal` type, so that the
`.fillna(0)` step of the allocator is represented faithfully.
-/

namespace Gepa

/-- Modelled float value: a finite rational, NaN, or a signed infinity.
Used for the pandas series arithmetic inside
`state_year_allocation_emissions` where a division by a zero group sum
produces NaN or infinite entries.  Signed zero is not modelled. -/
inductive FVal where
  | fin : ℚ → FVal
  | nan : FVal
  | inf : FVal
  | ninf : FVal
deriving DecidableEq

/-- Division of modelled float values, following IEEE-754: `0/0` is NaN,
`a/0` for `a ≠ 0` is a signed infinity, NaN propagates. -/
def fdiv : FVal → FVal → FVal
  | .nan, _ => .nan
  | _, .nan => .nan
  | .fin a, .fin b =>
      if b = 0 then (if a = 0 then .nan else if 0 < a then .inf else .ninf)
      else .fin (a / b)
  | .fin _, .inf => .fin 0
  | .fin _, .ninf => .fin 0
  | .inf, .fin b => if 0 ≤ b then .inf else .ninf
  | .ninf, .fin b => if 0 ≤ b then .ninf else .inf
  | .inf, .inf => .nan
  | .inf, .ninf => .nan
  | .ninf, .inf => .nan
  | .ninf, .ninf => .nan

/-- Multiplication of modelled float values, following IEEE-754:
`0 * inf` is NaN, NaN propagates. -/
def fmul : FVal → FVal → FVal
  | .nan, _ => .nan
  | _, .nan => .nan
  | .fin a, .fin b => .fin (a * b)
  | .fin a, .inf => if a = 0 then .nan else if 0 < a then .inf else .ninf
  | .fin a, .ninf => if a = 0 then .nan else if 0 < a then .ninf else .inf
  | .inf, .fin b => if b = 0 then .nan else if 0 < b then .inf else .ninf
  | .ninf, .fin b => if b = 0 then .nan else if 0 < b then .ninf else .inf
  | .inf, .inf => .inf
  | .inf, .ninf => .ninf
  | .ninf, .inf => .ninf
  | .ninf, .ninf => .inf

/-- Pandas `.fillna(d)`: replace NaN by `d`, leave every other value. -/
def fillna (d : ℚ) : FVal → FVal
  | .nan => .fin d
  | v => v

/-- Core of `state_year_allocation_emissions`
(`2C2_ferroalloy_production.py`, lines 467-469): the elementwise series
expression `((fac_emissions / fac_emissions.sum()) * emi_sum).fillna(0)`. -/
def allocate (values : List ℚ) (total : ℚ) : List FVal :=
  values.map fun v => fillna 0 (fmul (fdiv (.fin v) (.fin values.sum)) (.fin total))

/-- Rational-valued form of `allocate`, valid on non-negative inputs (proved
equal to `allocate` in `allocate_eq_allocQ`): a zero-sum group maps to all
zeros (its NaNs filled by `fillna(0)`), otherwise each entry is
`v / sum * total`. -/
def allocQ (values : List ℚ) (total : ℚ) : List ℚ :=
  values.map fun v => if values.sum = 0 then 0 else v / values.sum * total

/-- Closeness predicate of the spec's tolerance: absolute tolerance `1e-9`
plus relative tolerance `1e-5` (the shape of `np.isclose`). -/
def isClose (a b : ℚ) : Bool := |a - b| ≤ 1 / 10 ^ 9 + 1 / 10 ^ 5 * |b|

lemma sum_map_mul_const (l : List ℚ) (c : ℚ) :
    (l.map fun v => v * c).sum = l.sum * c := by
  induction l with
  | nil => simp
  | cons a t ih => simp [ih, add_mul]

lemma sum_all_zero {values : List ℚ} (h : ∀ v ∈ values, 0 ≤ v)
    (hs : values.sum = 0) : ∀ v ∈ values, v = 0 := by
  induction values with
  | nil => intro v hv; cases hv
  | cons a l ih =>
      have ha : 0 ≤ a := h a (List.mem_cons_self a l)
      have hl : ∀ v ∈ l, 0 ≤ v := fun v hv => h v (List.mem_cons_of_mem a hv)
      have hls : 0 ≤ l.sum := List.sum_nonneg hl
      have hsum : a + l.sum = 0 := by simpa using hs
      have ha0 : a = 0 := le_antisymm (by linarith) ha
      have hl0 : l.sum = 0 := by linarith
      intro v hv
      rcases List.mem_cons.mp hv with rfl | hv'
      · exact ha0
      · exact ih hl hl0 v hv'

/-- On non-negative inputs `allocate` produces only finite values, namely
those of `allocQ`. -/
lemma allocate_eq_allocQ (values : List ℚ) (total : ℚ)
    (h : ∀ v ∈ values, 0 ≤ v) :
    allocate values total = (allocQ values total).map FVal.fin := by
  unfold allocate allocQ
  rw [List.map_map]
  apply List.map_congr_left
  intro v hv
  by_cases hs : values.sum = 0
  · have hv0 : v = 0 := sum_all_zero h hs v hv
    subst hv0
    simp [hs, fdiv, fmul, fillna]
  · simp [hs, fdiv, fmul, fillna]

/-- C2: for a group whose facility values are all zero and any group total,
the allocator returns all zeros and never produces NaN: the `0/0` NaNs are
replaced by `fillna(0)`. -/
theorem allocate_zero_group (values : List ℚ) (T : ℚ)
    (h : ∀ v ∈ values, v = 0) :
    allocate values T = values.map (fun _ => FVal.fin 0) ∧
      FVal.nan ∉ allocate values T := by
  have hsum : values.sum = 0 := List.sum_eq_zero h
  have hmap : allocate values T = values.map (fun _ => FVal.fin 0) := by
    unfold allocate
    apply List.map_congr_left
    intro v hv
    rw [h v hv, hsum]
    simp [fdiv, fmul, fillna]
  refine ⟨hmap, ?_⟩
  rw [hmap]
  intro hmem
  rcases List.mem_map.mp hmem with ⟨v, _, hv⟩
  exact FVal.noConfusion hv

/-- Witness for C2 at the spec's own example `allocate([0,0,0], T)` with
`T = 7`. -/
theorem allocate_zero_group_witness :
    allocate [0, 0, 0] (7 : ℚ) = [FVal.fin 0, FVal.fin 0, FVal.fin 0] ∧
      FVal.nan ∉ allocate [0, 0, 0] (7 : ℚ) := by
  have h := allocate_zero_group [0, 0, 0] 7 (by intro v hv; simpa using hv)
  simpa using h

/-- C7: for a two-element group `[a, b]` with positive sum, the allocator
returns exactly `[T*a/(a+b), T*b/(a+b)]`. -/
theorem allocate_two_prop (a b T : ℚ) (h : 0 < a + b) :
    allocate [a, b] T =
      [FVal.fin (T * a / (a + b)), FVal.fin (T * b / (a + b))] := by
  have hs : ([a, b] : List ℚ).sum = a + b := by simp
  have hne : a + b ≠ 0 := ne_of_gt h
  unfold allocate
  rw [hs]
  simp only [List.map_cons, List.map_nil, fdiv, fmul, fillna, if_neg hne]
  have h1 : a / (a + b) * T = T * a / (a + b) := by ring
  have h2 : b / (a + b) * T = T * b / (a + b) := by ring
  rw [h1, h2]

/-- Witness for C7 at `a = 3`, `b = 7`, `T = 5`. -/
theorem allocate_two_prop_witness :
    allocate [3, 7] (5 : ℚ) =
      [FVal.fin (5 * 3 / (3 + 7)), FVal.fin (5 * 7 / (3 + 7))] :=
  allocate_two_prop 3 7 5 (by norm_num)

/-- C1 counterexample: the group `[0]` with total `5` is non-empty, yet the
allocator returns `[0]`, whose sum `0` is not within tolerance of `5`. -/
theorem allocate_sum_claim_cex :
    allocate [0] (5 : ℚ) = [FVal.fin 0] ∧ isClose 0 5 = false := by
  constructor
  · simp [allocate, fdiv, fmul, fillna]
  · have h5 : |(0 : ℚ) - 5| = 5 := by
      rw [show ((0 : ℚ) - 5) = -5 by norm_num, abs_neg, abs_of_nonneg] <;> norm_num
    have h5' : |(5 : ℚ)| = 5 := abs_of_nonneg (by norm_num)
    simp only [isClose, h5, h5', decide_eq_false_iff_not, not_le]
    norm_num

/-- C1 (amended): for a non-empty group of non-negative facility values with
nonzero sum and non-negative total, the allocator returns a same-length
sequence of non-negative finite values summing exactly (hence within
tolerance) to the group total. -/
theorem allocate_sum_to_total (values : List ℚ) (total : ℚ)
    (hne : values ≠ []) (hnn : ∀ v ∈ values, 0 ≤ v) (hT : 0 ≤ total)
    (hs : values.sum ≠ 0) :
    (allocate values total).length = values.length ∧
      allocate values total = (allocQ values total).map FVal.fin ∧
      (∀ q ∈ allocQ values total, 0 ≤ q) ∧
      (allocQ values total).sum = total ∧
      isClose (allocQ values total).sum total = true := by
  have hpos : 0 < values.sum :=
    lt_of_le_of_ne (List.sum_nonneg hnn) (Ne.symm hs)
  have hbridge := allocate_eq_allocQ values total hnn
  have hlen : (allocate values total).length = values.length := by
    unfold allocate; simp
  have hform : allocQ values total =
      values.map fun v => v * (total / values.sum) := by
    unfold allocQ
    apply List.map_congr_left
    intro v _
    rw [if_neg hs]
    field_simp
  have hsum : (allocQ values total).sum = total := by
    rw [hform, sum_map_mul_const]
    field_simp
  refine ⟨hlen, hbridge, ?_, hsum, ?_⟩
  · intro q hq
    rw [hform] at hq
    rcases List.mem_map.mp hq with ⟨v, hv, rfl⟩
    have := hnn v hv
    positivity
  · rw [hsum]
    simp only [isClose, sub_self, abs_zero, decide_eq_true_eq]
    positivity

/-- Witness for the amended C1 at values `[3, 7]`, total `10`. -/
theorem allocate_sum_to_total_witness :
    (allocate [3, 7] (10 : ℚ)).length = 2 ∧
      allocate [3, 7] (10 : ℚ) = (allocQ [3, 7] 10).map FVal.fin ∧
      (allocQ [3, 7] (10 : ℚ)).sum = 10 ∧
      isClose (allocQ [3, 7] (10 : ℚ)).sum 10 = true := by
  have h := allocate_sum_to_total [3, 7] 10 (by simp) (by norm_num)
    (by norm_num) (by norm_num [List.sum_cons, List.sum_nil])
  exact ⟨by rw [h.1]; rfl, h.2.1, h.2.2.2.1, h.2.2.2.2⟩

/-- Avogadro's number as written in `gch4i/utils.py`:
`6.02214129 * 10 ** 23` (molecules/mol). -/
def Avogadro : ℚ := 602214129 / 10 ^ 8 * 10 ^ 23

/-- CH4 molecular weight `16.04` g/mol (`gch4i/utils.py`). -/
def Molarch4 : ℚ := 1604 / 100

/-- The `calc_conversion_factor` function of `gch4i/utils.py`: per cell,
`10**9 * Avogadro / float(Molarch4 * year_days * 24 * 60 * 60) / area_matrix`.
The area matrix is a map from cell index to cell area. -/
def calc_conversion_factor (year_days : ℕ) (area_matrix : ℕ × ℕ → ℚ) :
    ℕ × ℕ → ℚ :=
  fun ij =>
    10 ^ 9 * Avogadro / (Molarch4 * (year_days : ℚ) * (24 * 60 * 60)) /
      area_matrix ij

/-- C4: for every positive day count and strictly positive area matrix, the
conversion factor at every cell equals exactly
`1e9 * 6.02214129e23 / (16.04 * days * 86400) / area`
(with `6.02214129e23 = 602214129 * 10^15` and `16.04 = 1604/100`). -/
theorem calc_conversion_factor_formula (year_days : ℕ) (hd : 0 < year_days)
    (area_matrix : ℕ × ℕ → ℚ) (hA : ∀ ij, 0 < area_matrix ij) (ij : ℕ × ℕ) :
    calc_conversion_factor year_days area_matrix ij =
      10 ^ 9 * (602214129 * 10 ^ 15) /
        (1604 / 100 * (year_days : ℚ) * 86400) / area_matrix ij := by
  unfold calc_conversion_factor Avogadro Molarch4
  norm_num

/-- Witness for C4 at `year_days = 365`, unit cell areas. -/
theorem calc_conversion_factor_formula_witness :
    calc_conversion_factor 365 (fun _ => 1) (0, 0) =
      10 ^ 9 * (602214129 * 10 ^ 15) /
        (1604 / 100 * (365 : ℚ) * 86400) / (1 : ℚ) :=
  calc_conversion_factor_formula 365 (by norm_num) (fun _ => 1)
    (fun _ => by norm_num) (0, 0)

lemma calc_conversion_factor_num_pos (year_days : ℕ) (hd : 0 < year_days) :
    0 < 10 ^ 9 * Avogadro / (Molarch4 * (year_days : ℚ) * (24 * 60 * 60)) := by
  have hdq : (0 : ℚ) < (year_days : ℚ) := by exact_mod_cast hd
  unfold Avogadro Molarch4
  positivity

/-- C8: the conversion factor is strictly decreasing elementwise in the cell
areas and strictly decreasing in the day count. -/
theorem calc_conversion_factor_strict_anti :
    (∀ (d : ℕ) (a1 a2 : ℕ × ℕ → ℚ) (ij : ℕ × ℕ), 0 < d → 0 < a1 ij →
      a1 ij < a2 ij →
      calc_conversion_factor d a2 ij < calc_conversion_factor d a1 ij) ∧
    (∀ (d1 d2 : ℕ) (a : ℕ × ℕ → ℚ), 0 < d1 → d1 < d2 →
      (∀ ij, 0 < a ij) → ∀ ij,
      calc_conversion_factor d2 a ij < calc_conversion_factor d1 a ij) := by
  constructor
  · intro d a1 a2 ij hd h1 hlt
    exact div_lt_div_of_pos_left (calc_conversion_factor_num_pos d hd) h1 hlt
  · intro d1 d2 a h1 h12 ha ij
    have hd2 : 0 < d2 := lt_trans h1 h12
    have hnum : (0 : ℚ) < 10 ^ 9 * Avogadro := by
      unfold Avogadro; positivity
    have hden1 : (0 : ℚ) < Molarch4 * (d1 : ℚ) * (24 * 60 * 60) := by
      have : (0 : ℚ) < (d1 : ℚ) := by exact_mod_cast h1
      unfold Molarch4; positivity
    have hdenlt : Molarch4 * (d1 : ℚ) * (24 * 60 * 60) <
        Molarch4 * (d2 : ℚ) * (24 * 60 * 60) := by
      have hc : (d1 : ℚ) < (d2 : ℚ) := by exact_mod_cast h12
      have hM : (0 : ℚ) < Molarch4 := by unfold Molarch4; positivity
      have := mul_lt_mul_of_pos_left hc hM
      nlinarith
    have hK : 10 ^ 9 * Avogadro / (Molarch4 * (d2 : ℚ) * (24 * 60 * 60)) <
        10 ^ 9 * Avogadro / (Molarch4 * (d1 : ℚ) * (24 * 60 * 60)) :=
      div_lt_div_of_pos_left hnum hden1 hdenlt
    exact div_lt_div_of_pos_right hK (ha ij)

/-- Witness for C8: day counts 365 < 366, areas 1 < 2, at cell `(0, 0)`. -/
theorem calc_conversion_factor_strict_anti_witness :
    calc_conversion_factor 365 (fun _ => 2) (0, 0) <
        calc_conversion_factor 365 (fun _ => 1) (0, 0) ∧
      calc_conversion_factor 366 (fun _ => 1) (0, 0) <
        calc_conversion_factor 365 (fun _ => 1) (0, 0) := by
  constructor
  · exact calc_conversion_factor_strict_anti.1 365 (fun _ => 1) (fun _ => 2)
      (0, 0) (by norm_num) (by norm_num) (by norm_num)
  · exact calc_conversion_factor_strict_anti.2 365 366 (fun _ => 1)
      (by norm_num) (by norm_num) (fun _ => by norm_num) (0, 0)

/-- Point geometry with rational coordinates. -/
structure Pt where
  x : ℚ
  y : ℚ
deriving DecidableEq

/-- North-up affine grid transform `(a, c, e, f)`: `x = c + a * col`,
`y = f + e * row` (off-diagonal terms zero, as in a rasterio profile
transform).  Modelled from the spec: the concrete `GEPA_PROFILE` lives in
`gch4i/gridding.py`, which is not among the provided sources; the spec fixes
"row/col from an affine inverse, floor-based cell assignment". -/
structure Affine where
  a : ℚ
  c : ℚ
  e : ℚ
  f : ℚ
deriving DecidableEq

/-- Cell `(row, col)` containing a point: floor-based affine inverse. -/
def cellOf (t : Affine) (p : Pt) : ℤ × ℤ :=
  (⌊(p.y - t.f) / t.e⌋, ⌊(p.x - t.c) / t.a⌋)

/-- Membership of a `(row, col)` index in an `nr × nc` grid. -/
def inGrid (nr nc : ℕ) (rc : ℤ × ℤ) : Prop :=
  0 ≤ rc.1 ∧ rc.1 < (nr : ℤ) ∧ 0 ≤ rc.2 ∧ rc.2 < (nc : ℤ)

instance inGridDec (nr nc : ℕ) (rc : ℤ × ℤ) : Decidable (inGrid nr nc rc) := by
  unfold inGrid; infer_instance

/-- One burn step: add the shape's value into the cell containing its point,
skipping shapes outside the grid. -/
def burn (nr nc : ℕ) (t : Affine) (g : ℤ × ℤ → ℚ) (sv : Pt × ℚ) :
    ℤ × ℤ → ℚ :=
  if inGrid nr nc (cellOf t sv.1) then
    Function.update g (cellOf t sv.1) (g (cellOf t sv.1) + sv.2)
  else g

/-- The `rasterio.features.rasterize` call of
`2C2_ferroalloy_production.py` (lines 522-532), modelled from the spec
contract (the library itself is an external collaborator): the grid starts
at the `fill=0` value everywhere and every `(point, value)` shape adds its
value into the cell containing the point (`merge_alg=MergeAlg.add`). -/
def rasterize (nr nc : ℕ) (t : Affine) (shapes : List (Pt × ℚ)) :
    ℤ × ℤ → ℚ :=
  shapes.foldl (burn nr nc t) (fun _ => 0)

lemma burn_foldl_in (nr nc : ℕ) (t : Affine) (shapes : List (Pt × ℚ))
    (g : ℤ × ℤ → ℚ) (rc : ℤ × ℤ) (hin : inGrid nr nc rc) :
    shapes.foldl (burn nr nc t) g rc =
      g rc + ((shapes.filter fun sv => decide (cellOf t sv.1 = rc)).map
        Prod.snd).sum := by
  induction shapes generalizing g with
  | nil => simp
  | cons sv rest ih =>
      rw [List.foldl_cons, ih]
      by_cases hc : cellOf t sv.1 = rc
      · have hing : inGrid nr nc (cellOf t sv.1) := by rw [hc]; exact hin
        have hb : burn nr nc t g sv rc = g rc + sv.2 := by
          unfold burn
          rw [if_pos hing, hc, Function.update_same]
        rw [hb]
        simp [List.filter_cons, hc]
        ring
      · have hb : burn nr nc t g sv rc = g rc := by
          unfold burn
          by_cases hing : inGrid nr nc (cellOf t sv.1)
          · rw [if_pos hing,
              Function.update_noteq (fun h => hc h.symm) _ g]
          · rw [if_neg hing]
        rw [hb]
        simp [List.filter_cons, hc]

lemma burn_foldl_out (nr nc : ℕ) (t : Affine) (shapes : List (Pt × ℚ))
    (g : ℤ × ℤ → ℚ) (rc : ℤ × ℤ) (hout : ¬inGrid nr nc rc) :
    shapes.foldl (burn nr nc t) g rc = g rc := by
  induction shapes generalizing g with
  | nil => rfl
  | cons sv rest ih =>
      rw [List.foldl_cons, ih]
      unfold burn
      by_cases hing : inGrid nr nc (cellOf t sv.1)
      · rw [if_pos hing,
          Function.update_noteq (fun h => hout (by rw [h]; exact hing)) _ g]
      · rw [if_neg hing]

/-- C3: at every in-grid cell the rasterized grid holds the sum of the
values of the features whose point falls in that cell; a cell containing no
feature is exactly 0; and permuting the input features leaves the whole
grid unchanged. -/
theorem rasterize_spec (nr nc : ℕ) (t : Affine) (shapes : List (Pt × ℚ)) :
    (∀ rc : ℤ × ℤ, inGrid nr nc rc →
      rasterize nr nc t shapes rc =
        ((shapes.filter fun sv => decide (cellOf t sv.1 = rc)).map
          Prod.snd).sum) ∧
    (∀ rc : ℤ × ℤ, inGrid nr nc rc →
      (∀ sv ∈ shapes, cellOf t sv.1 ≠ rc) →
      rasterize nr nc t shapes rc = 0) ∧
    (∀ shapes' : List (Pt × ℚ), shapes.Perm shapes' →
      rasterize nr nc t shapes = rasterize nr nc t shapes') := by
  have hcell : ∀ rc : ℤ × ℤ, inGrid nr nc rc →
      rasterize nr nc t shapes rc =
        ((shapes.filter fun sv => decide (cellOf t sv.1 = rc)).map
          Prod.snd).sum := by
    intro rc hin
    unfold rasterize
    rw [burn_foldl_in nr nc t shapes _ rc hin]
    simp
  refine ⟨hcell, ?_, ?_⟩
  · intro rc hin hnone
    rw [hcell rc hin]
    have : shapes.filter (fun sv => decide (cellOf t sv.1 = rc)) = [] := by
      rw [List.filter_eq_nil]
      intro sv hsv
      simpa using hnone sv hsv
    rw [this]
    simp
  · intro shapes' hperm
    funext rc
    by_cases hin : inGrid nr nc rc
    · have h1 := burn_foldl_in nr nc t shapes (fun _ => 0) rc hin
      have h2 := burn_foldl_in nr nc t shapes' (fun _ => 0) rc hin
      unfold rasterize
      rw [h1, h2]
      have hpf : (shapes.filter fun sv => decide (cellOf t sv.1 = rc)).Perm
          (shapes'.filter fun sv => decide (cellOf t sv.1 = rc)) :=
        hperm.filter _
      have := (hpf.map Prod.snd).sum_eq
      rw [this]
    · unfold rasterize
      rw [burn_foldl_out nr nc t shapes _ rc hin,
        burn_foldl_out nr nc t shapes' _ rc hin]

/-- Witness for C3: a 10×10 grid with unit-degree transform, two features
in cell `(0, 0)` summing to 5, the empty cell `(3, 3)`, and a swap of the
two features. -/
theorem rasterize_spec_witness :
    (rasterize 10 10 ⟨1, 0, -1, 0⟩
        [(⟨1/2, -1/2⟩, 2), (⟨1/5, -1/5⟩, 3)] (0, 0) =
      ((([(⟨1/2, -1/2⟩, 2), (⟨1/5, -1/5⟩, 3)] : List (Pt × ℚ)).filter
          fun sv => decide (cellOf ⟨1, 0, -1, 0⟩ sv.1 = (0, 0))).map
        Prod.snd).sum) ∧
    (rasterize 10 10 ⟨1, 0, -1, 0⟩
        [(⟨1/2, -1/2⟩, 2), (⟨1/5, -1/5⟩, 3)] (3, 3) = 0) ∧
    (rasterize 10 10 ⟨1, 0, -1, 0⟩
        [(⟨1/2, -1/2⟩, 2), (⟨1/5, -1/5⟩, 3)] =
      rasterize 10 10 ⟨1, 0, -1, 0⟩
        [(⟨1/5, -1/5⟩, 3), (⟨1/2, -1/2⟩, 2)]) := by
  have h := rasterize_spec 10 10 ⟨1, 0, -1, 0⟩
    [(⟨1/2, -1/2⟩, 2), (⟨1/5, -1/5⟩, 3)]
  refine ⟨h.1 (0, 0) (by norm_num [inGrid]), ?_, ?_⟩
  · refine h.2.1 (3, 3) (by norm_num [inGrid]) ?_
    intro sv hsv
    rcases List.mem_cons.mp hsv with rfl | hsv'
    · norm_num [cellOf, Prod.ext_iff]
    · rcases List.mem_cons.mp hsv' with rfl | hsv''
      · norm_num [cellOf, Prod.ext_iff]
      · cases hsv''
  · exact h.2.2 _ (List.Perm.swap _ _ _)

/-- Row of the EPA state inventory table (`EPA_ferro_emissions`): state
code, year, state total in kt. -/
structure InvRow where
  state_code : String
  year : ℤ
  ch4_kt : ℚ
deriving DecidableEq

/-- The full `state_year_allocation_emissions` of
`2C2_ferroalloy_production.py` (lines 451-470): select the inventory rows
matching the group's `(state, year)` key, take `["ch4_kt"].iat[0]` — a
positional access that raises on an empty selection, modelled as `none` —
and allocate it over the group's facility emissions. -/
def state_year_allocation_emissions (inventory_df : List InvRow)
    (state : String) (year : ℤ) (fac_emissions : List ℚ) :
    Option (List FVal) :=
  (((inventory_df.filter fun r =>
        decide (r.state_code = state) && decide (r.year = year)).map
      InvRow.ch4_kt).head?).map
    fun emi_sum => allocate fac_emissions emi_sum

/-- C9: `state_year_allocation_emissions` is partial — it fails on every
group whose `(state, year)` key has no inventory row, and succeeds whenever
a matching row exists. -/
theorem state_year_allocation_lookup (inv : List InvRow) (s : String)
    (y : ℤ) (vals : List ℚ) :
    ((∀ r ∈ inv, ¬(r.state_code = s ∧ r.year = y)) →
      state_year_allocation_emissions inv s y vals = none) ∧
    (∀ r ∈ inv, r.state_code = s → r.year = y →
      ∃ out, state_year_allocation_emissions inv s y vals = some out) := by
  constructor
  · intro hnone
    have hfil : inv.filter
        (fun r => decide (r.state_code = s) && decide (r.year = y)) = [] := by
      rw [List.filter_eq_nil_iff]
      intro r hr
      have := hnone r hr
      simp only [Bool.and_eq_true, decide_eq_true_eq]
      tauto
    unfold state_year_allocation_emissions
    rw [hfil]
    rfl
  · intro r hr hs hy
    have hmem : r ∈ inv.filter
        (fun r => decide (r.state_code = s) && decide (r.year = y)) := by
      rw [List.mem_filter]
      exact ⟨hr, by simp [hs, hy]⟩
    unfold state_year_allocation_emissions
    rcases hfe : inv.filter
        (fun r => decide (r.state_code = s) && decide (r.year = y)) with
      _ | ⟨a, t⟩
    · rw [hfe] at hmem; cases hmem
    · exact ⟨allocate vals a.ch4_kt, by rw [hfe]; rfl⟩

/-- Witness for C9: a one-row inventory; the lookup fails for a group key
with no row and succeeds for the matching key. -/
theorem state_year_allocation_lookup_witness :
    state_year_allocation_emissions [⟨"NE", 2012, 5⟩] "OH" 2012 [1, 2] =
        none ∧
      ∃ out, state_year_allocation_emissions [⟨"NE", 2012, 5⟩] "NE" 2012
        [1, 2] = some out := by
  constructor
  · refine (state_year_allocation_lookup [⟨"NE", 2012, 5⟩] "OH" 2012
      [1, 2]).1 ?_
    intro r hr
    have : r = (⟨"NE", 2012, 5⟩ : InvRow) := by simpa using hr
    rw [this]
    intro hcon
    exact absurd hcon.1 (by simp)
  · exact (state_year_allocation_lookup [⟨"NE", 2012, 5⟩] "NE" 2012
      [1, 2]).2 ⟨"NE", 2012, 5⟩ (by simp) rfl rfl

/-- Facility record of one year (`ferro_facilities_gdf` restricted to a
year): state, proxy value `ch4_kt`, and optional point location (`none`
models an unresolved/empty geometry, which the rasterization step drops). -/
structure FacRec where
  state_code : String
  value : ℚ
  geometry : Option Pt
deriving DecidableEq

/-- The facilities of one state: the `groupby(["state_code", "year"])`
group for the fixed year. -/
def stateFacs (facs : List FacRec) (s : String) : List FacRec :=
  facs.filter fun f => decide (f.state_code = s)

/-- The `allocated_ch4_kt` column value of one facility: its state group's
total (first inventory row for the state) distributed in proportion to the
facility's share of the group's value sum, with the zero-sum group going to
zero through `fillna(0)`. -/
def allocatedVal (inv : List (String × ℚ)) (facs : List FacRec)
    (f : FacRec) : ℚ :=
  match inv.find? fun p => decide (p.1 = f.state_code) with
  | none => 0
  | some p =>
      if ((stateFacs facs f.state_code).map FacRec.value).sum = 0 then 0
      else
        f.value / ((stateFacs facs f.state_code).map FacRec.value).sum * p.2

/-- The year's rasterization input: every facility with a resolved
geometry, paired with its allocated emissions
(`data[["geometry", "allocated_ch4_kt"]]` at lines 522-526). -/
def yearShapes (inv : List (String × ℚ)) (facs : List FacRec) :
    List (Pt × ℚ) :=
  facs.filterMap fun f => f.geometry.map fun pt => (pt, allocatedVal inv facs f)

/-- The year's gridded mass array (`ch4_kt_raster`). -/
def yearGrid (nr nc : ℕ) (t : Affine) (inv : List (String × ℚ))
    (facs : List FacRec) : ℤ × ℤ → ℚ :=
  rasterize nr nc t (yearShapes inv facs)

/-- All cell indices of an `nr × nc` grid. -/
def gridCells (nr nc : ℕ) : Finset (ℤ × ℤ) :=
  Finset.Icc 0 ((nr : ℤ) - 1) ×ˢ Finset.Icc 0 ((nc : ℤ) - 1)

/-- Sum of all state totals of the year (`emi_sum` at line 551). -/
def invSum (inv : List (String × ℚ)) : ℚ := (inv.map Prod.snd).sum

/-- Sum of the state totals of the states none of whose facilities has a
resolved location in the year. -/
def noLocatedSum (inv : List (String × ℚ)) (facs : List FacRec) : ℚ :=
  ((inv.filter fun p =>
      (stateFacs facs p.1).all fun f => !f.geometry.isSome).map
    Prod.snd).sum

lemma mem_gridCells {nr nc : ℕ} {rc : ℤ × ℤ} :
    rc ∈ gridCells nr nc ↔ inGrid nr nc rc := by
  simp only [gridCells, inGrid, Finset.mem_product, Finset.mem_Icc]
  omega

lemma sum_map_mul_fun {α : Type} (l : List α) (h : α → ℚ) (c : ℚ) :
    (l.map fun x => h x * c).sum = (l.map h).sum * c := by
  induction l with
  | nil => simp
  | cons a t ih => simp [ih, add_mul]

lemma sum_map_add {α : Type} (l : List α) (f g : α → ℚ) :
    (l.map fun x => f x + g x).sum = (l.map f).sum + (l.map g).sum := by
  induction l with
  | nil => simp
  | cons a t ih => simp only [List.map_cons, List.sum_cons]; rw [ih]; ring

lemma sum_map_sub {α : Type} (l : List α) (f g : α → ℚ) :
    (l.map f).sum - (l.map g).sum = (l.map fun x => f x - g x).sum := by
  induction l with
  | nil => simp
  | cons a t ih => simp only [List.map_cons, List.sum_cons]; rw [← ih]; ring

lemma sum_if_filter {α : Type} (l : List α) (q : α → Bool) (v : α → ℚ) :
    (l.map fun x => if q x then v x else 0).sum =
      ((l.filter q).map v).sum := by
  induction l with
  | nil => simp
  | cons a t ih =>
      by_cases hq : q a
      · simp [List.filter_cons, hq, ih]
      · simp [List.filter_cons, hq, ih]

lemma allocQ_sum (values : List ℚ) (T : ℚ) (hs : values.sum ≠ 0) :
    (allocQ values T).sum = T := by
  have hform : allocQ values T = values.map fun v => v * (T / values.sum) := by
    unfold allocQ
    apply List.map_congr_left
    intro v _
    rw [if_neg hs]
    field_simp
  rw [hform, sum_map_mul_fun]
  simp only [List.map_id', List.map_id]
  field_simp

/-- Total of a rasterized grid over all cells: when every feature falls
inside the grid, the grid total is the sum of the feature values. -/
lemma rasterize_total (nr nc : ℕ) (t : Affine) (shapes : List (Pt × ℚ))
    (hin : ∀ sv ∈ shapes, inGrid nr nc (cellOf t sv.1)) :
    ∑ rc ∈ gridCells nr nc, rasterize nr nc t shapes rc =
      (shapes.map Prod.snd).sum := by
  have hgen : ∀ (sh : List (Pt × ℚ)), (∀ sv ∈ sh, inGrid nr nc (cellOf t sv.1)) →
      ∀ (g : ℤ × ℤ → ℚ),
      ∑ rc ∈ gridCells nr nc, sh.foldl (burn nr nc t) g rc =
        (∑ rc ∈ gridCells nr nc, g rc) + (sh.map Prod.snd).sum := by
    intro sh
    induction sh with
    | nil => intro _ g; simp
    | cons sv rest ih =>
        intro hsh g
        rw [List.foldl_cons]
        rw [ih (fun x hx => hsh x (List.mem_cons_of_mem sv hx))]
        have hmem : cellOf t sv.1 ∈ gridCells nr nc :=
          mem_gridCells.mpr (hsh sv (List.mem_cons_self sv rest))
        have hburn : ∑ rc ∈ gridCells nr nc, burn nr nc t g sv rc =
            (∑ rc ∈ gridCells nr nc, g rc) + sv.2 := by
          unfold burn
          rw [if_pos (mem_gridCells.mp hmem)]
          rw [Finset.sum_update_of_mem hmem, Finset.sdiff_singleton_eq_erase]
          rw [← Finset.add_sum_erase _ g hmem]
          ring
        rw [hburn]
        simp only [List.map_cons, List.sum_cons]
        ring
  have := hgen shapes hin (fun _ => 0)
  unfold rasterize
  rw [this]
  simp

lemma filterMap_geom_values (h : FacRec → ℚ) (l : List FacRec) :
    (l.filterMap fun f => f.geometry.map fun pt => (pt, h f)).map Prod.snd =
      (l.filter fun f => f.geometry.isSome).map h := by
  induction l with
  | nil => rfl
  | cons f rest ih =>
      rcases hg : f.geometry with _ | pt
      · simpa [List.filterMap_cons, List.filter_cons, hg] using ih
      · simpa [List.filterMap_cons, List.filter_cons, hg] using ih

/-- The value column of the year's shapes is the allocated column of the
located facilities. -/
lemma yearShapes_values (inv : List (String × ℚ)) (facs : List FacRec) :
    (yearShapes inv facs).map Prod.snd =
      ((facs.filter fun f => f.geometry.isSome).map
        (allocatedVal inv facs)) :=
  filterMap_geom_values (allocatedVal inv facs) facs

lemma find_row {inv : List (String × ℚ)} {p : String × ℚ}
    (hnd : (inv.map Prod.fst).Nodup) (hp : p ∈ inv) :
    inv.find? (fun q => decide (q.1 = p.1)) = some p := by
  induction inv with
  | nil => cases hp
  | cons q rest ih =>
      rcases List.mem_cons.mp hp with rfl | hp'
      · rw [List.find?_cons_of_pos _ (by simp)]
      · have hnd' : (rest.map Prod.fst).Nodup := (List.nodup_cons.mp hnd).2
        have hq1 : q.1 ∉ rest.map Prod.fst := (List.nodup_cons.mp hnd).1
        have hne : ¬(q.1 = p.1) := by
          intro hcon
          exact hq1 (hcon ▸ List.mem_map_of_mem Prod.fst hp')
        rw [List.find?_cons_of_neg _ (by simpa using hne)]
        exact ih hnd' hp'

lemma sum_indicator_zero (inv : List (String × ℚ)) (s : String) (c : ℚ)
    (hs : ∀ p ∈ inv, p.1 ≠ s) :
    (inv.map fun p => if p.1 = s then c else 0).sum = 0 := by
  induction inv with
  | nil => rfl
  | cons q rest ih =>
      have hq : ¬(q.1 = s) := hs q (List.mem_cons_self q rest)
      simp only [List.map_cons, List.sum_cons, if_neg hq, zero_add]
      exact ih fun p hp => hs p (List.mem_cons_of_mem q hp)

lemma sum_indicator (inv : List (String × ℚ)) (s : String) (c : ℚ)
    (hnd : (inv.map Prod.fst).Nodup) (hs : ∃ p ∈ inv, p.1 = s) :
    (inv.map fun p => if p.1 = s then c else 0).sum = c := by
  induction inv with
  | nil => rcases hs with ⟨p, hp, _⟩; cases hp
  | cons q rest ih =>
      have hnd' : (rest.map Prod.fst).Nodup := (List.nodup_cons.mp hnd).2
      have hq1 : q.1 ∉ rest.map Prod.fst := (List.nodup_cons.mp hnd).1
      by_cases hq : q.1 = s
      · have hrest : (rest.map fun p => if p.1 = s then c else 0).sum = 0 := by
          apply sum_indicator_zero
          intro p hp hcon
          exact hq1 (by
            rw [hq, ← hcon]
            exact List.mem_map_of_mem Prod.fst hp)
        simp only [List.map_cons, List.sum_cons, if_pos hq, hrest, add_zero]
      · rcases hs with ⟨p, hp, hps⟩
        rcases List.mem_cons.mp hp with rfl | hp'
        · exact absurd hps hq
        · simp only [List.map_cons, List.sum_cons, if_neg hq, zero_add]
          exact ih hnd' ⟨p, hp', hps⟩

/-- Regrouping a facility sum by the (unique) inventory row of each
facility's state. -/
lemma sum_partition (inv : List (String × ℚ)) (facs : List FacRec)
    (g : FacRec → ℚ) (hnd : (inv.map Prod.fst).Nodup)
    (hcov : ∀ f ∈ facs, ∃ p ∈ inv, p.1 = f.state_code) :
    (inv.map fun p =>
        ((facs.filter fun f => decide (f.state_code = p.1)).map g).sum).sum =
      (facs.map g).sum := by
  induction facs with
  | nil => simp
  | cons f rest ih =>
      have hcov' : ∀ x ∈ rest, ∃ p ∈ inv, p.1 = x.state_code :=
        fun x hx => hcov x (List.mem_cons_of_mem f hx)
      have hsplit : ∀ p : String × ℚ,
          (((f :: rest).filter fun x => decide (x.state_code = p.1)).map
            g).sum =
          (if p.1 = f.state_code then g f else 0) +
            ((rest.filter fun x => decide (x.state_code = p.1)).map g).sum := by
        intro p
        by_cases hf : f.state_code = p.1
        · simp [List.filter_cons, hf, if_pos hf.symm]
        · have : ¬(p.1 = f.state_code) := fun h => hf h.symm
          simp [List.filter_cons, hf, if_neg this]
      calc (inv.map fun p =>
              (((f :: rest).filter fun x =>
                decide (x.state_code = p.1)).map g).sum).sum
          = (inv.map fun p =>
              (if p.1 = f.state_code then g f else 0) +
                ((rest.filter fun x =>
                  decide (x.state_code = p.1)).map g).sum).sum := by
            apply congrArg
            exact List.map_congr_left fun p _ => hsplit p
        _ = (inv.map fun p => if p.1 = f.state_code then g f else 0).sum +
              (inv.map fun p =>
                ((rest.filter fun x =>
                  decide (x.state_code = p.1)).map g).sum).sum :=
            sum_map_add inv _ _
        _ = g f + (rest.map g).sum := by
            rw [sum_indicator inv f.state_code (g f) hnd
              (hcov f (List.mem_cons_self f rest)), ih hcov']
        _ = ((f :: rest).map g).sum := by simp

lemma filter_comm' {α : Type} (l : List α) (p q : α → Bool) :
    (l.filter p).filter q = (l.filter q).filter p := by
  induction l with
  | nil => rfl
  | cons a t ih =>
      by_cases hp : p a <;> by_cases hq : q a <;>
        simp [List.filter_cons, hp, hq, ih]

lemma allocatedVal_of_mem {inv : List (String × ℚ)} {p : String × ℚ}
    (hnd : (inv.map Prod.fst).Nodup) (hp : p ∈ inv)
    (facs : List FacRec) (f : FacRec) (hf : f ∈ stateFacs facs p.1) :
    allocatedVal inv facs f =
      if ((stateFacs facs p.1).map FacRec.value).sum = 0 then 0
      else f.value / ((stateFacs facs p.1).map FacRec.value).sum * p.2 := by
  have hs : f.state_code = p.1 := by
    have := (List.mem_filter.mp hf).2
    simpa using this
  unfold allocatedVal
  rw [hs, find_row hnd hp]

/-- Per inventory row: the located facilities' allocated sum is the full
state total when the group is entirely located with nonzero value sum, and
zero when no facility of the state is located. -/
lemma locTerm_eval {inv : List (String × ℚ)} {p : String × ℚ}
    (facs : List FacRec) (hnd : (inv.map Prod.fst).Nodup) (hp : p ∈ inv)
    (hok_p : (∃ f ∈ stateFacs facs p.1, f.geometry.isSome = true) →
      ((∀ f ∈ stateFacs facs p.1, f.geometry.isSome = true) ∧
        ((stateFacs facs p.1).map FacRec.value).sum ≠ 0)) :
    (((facs.filter fun f => f.geometry.isSome).filter
        fun x => decide (x.state_code = p.1)).map
      (allocatedVal inv facs)).sum =
      if (stateFacs facs p.1).all (fun f => !f.geometry.isSome) then 0
      else p.2 := by
  have hswap : (facs.filter fun f => f.geometry.isSome).filter
      (fun x => decide (x.state_code = p.1)) =
      (stateFacs facs p.1).filter fun f => f.geometry.isSome := by
    rw [filter_comm']
    rfl
  rw [hswap]
  by_cases hloc : ∃ f ∈ stateFacs facs p.1, f.geometry.isSome = true
  · obtain ⟨hall, hS⟩ := hok_p hloc
    obtain ⟨f0, hf0, hf0s⟩ := hloc
    have hfeq : (stateFacs facs p.1).filter (fun f => f.geometry.isSome) =
        stateFacs facs p.1 :=
      List.filter_eq_self.mpr hall
    have hcondf : (stateFacs facs p.1).all (fun f => !f.geometry.isSome) =
        false := by
      rw [Bool.eq_false_iff]
      intro hcon
      have := List.all_eq_true.mp hcon f0 hf0
      rw [hf0s] at this
      cases this
    rw [hfeq, hcondf, if_neg (by simp)]
    have hmapeq : (stateFacs facs p.1).map (allocatedVal inv facs) =
        (stateFacs facs p.1).map fun f =>
          FacRec.value f *
            (p.2 / ((stateFacs facs p.1).map FacRec.value).sum) := by
      apply List.map_congr_left
      intro f hf
      rw [allocatedVal_of_mem hnd hp facs f hf, if_neg hS,
        div_mul_eq_mul_div, mul_div_assoc]
    rw [hmapeq, sum_map_mul_fun]
    field_simp
  · have hnone : ∀ f ∈ stateFacs facs p.1, f.geometry.isSome = false := by
      intro f hf
      rcases hgs : f.geometry.isSome with _ | _
      · rfl
      · exact absurd ⟨f, hf, hgs⟩ hloc
    have hfeq : (stateFacs facs p.1).filter
        (fun f => f.geometry.isSome) = [] := by
      rw [List.filter_eq_nil_iff]
      intro a ha
      rw [hnone a ha]
      simp
    have hcondt : (stateFacs facs p.1).all (fun f => !f.geometry.isSome) =
        true :=
      List.all_eq_true.mpr fun f hf => by rw [hnone f hf]; rfl
    rw [hfeq, hcondt, if_pos rfl]
    rfl

/-- C5 (amended): if states are unique in the inventory, every facility's
state has an inventory row, every located facility's point falls on the
grid, and every state group containing a located facility is entirely
located with a nonzero value sum, then the gap between the year's inventory
total and the year's grid total equals exactly the sum of the state totals
of the states with zero located facilities. -/
theorem missing_gap_explained (nr nc : ℕ) (t : Affine)
    (inv : List (String × ℚ)) (facs : List FacRec)
    (hnd : (inv.map Prod.fst).Nodup)
    (hcov : ∀ f ∈ facs, ∃ p ∈ inv, p.1 = f.state_code)
    (hpts : ∀ f ∈ facs, ∀ pt ∈ f.geometry, inGrid nr nc (cellOf t pt))
    (hok : ∀ p ∈ inv,
      (∃ f ∈ stateFacs facs p.1, f.geometry.isSome = true) →
      ((∀ f ∈ stateFacs facs p.1, f.geometry.isSome = true) ∧
        ((stateFacs facs p.1).map FacRec.value).sum ≠ 0)) :
    invSum inv - ∑ rc ∈ gridCells nr nc, yearGrid nr nc t inv facs rc =
      noLocatedSum inv facs := by
  have hin : ∀ sv ∈ yearShapes inv facs, inGrid nr nc (cellOf t sv.1) := by
    intro sv hsv
    rcases List.mem_filterMap.mp hsv with ⟨f, hf, hmap⟩
    rcases hg : f.geometry with _ | pt
    · rw [hg] at hmap; cases hmap
    · rw [hg] at hmap
      have heq : (pt, allocatedVal inv facs f) = sv := by
        simpa using hmap
      have hpt : pt ∈ f.geometry := by rw [hg]; rfl
      have := hpts f hf pt hpt
      rw [← heq]
      exact this
  have hgrid : ∑ rc ∈ gridCells nr nc, yearGrid nr nc t inv facs rc =
      ((facs.filter fun f => f.geometry.isSome).map
        (allocatedVal inv facs)).sum := by
    unfold yearGrid
    rw [rasterize_total nr nc t _ hin, yearShapes_values]
  have hcovloc : ∀ f ∈ facs.filter (fun f => f.geometry.isSome),
      ∃ p ∈ inv, p.1 = f.state_code :=
    fun f hf => hcov f (List.mem_of_mem_filter hf)
  have hpart := sum_partition inv (facs.filter fun f => f.geometry.isSome)
    (allocatedVal inv facs) hnd hcovloc
  rw [hgrid, ← hpart]
  unfold invSum
  rw [sum_map_sub]
  have hcongr : (inv.map fun p => p.2 -
      (((facs.filter fun f => f.geometry.isSome).filter
          fun x => decide (x.state_code = p.1)).map
        (allocatedVal inv facs)).sum) =
      inv.map fun p =>
        if (stateFacs facs p.1).all (fun f => !f.geometry.isSome) then p.2
        else 0 := by
    apply List.map_congr_left
    intro p hp
    rw [locTerm_eval facs hnd hp (hok p hp)]
    by_cases hc : (stateFacs facs p.1).all (fun f => !f.geometry.isSome)
    · rw [if_pos hc, if_pos hc]; ring
    · rw [if_neg hc, if_neg hc]; ring
  rw [hcongr, sum_if_filter]
  rfl
/-- C5 counterexample: a state with one located and one unlocated facility
(equal values, state total 10) leaves a gap of 5 between the inventory
total and the grid total, while no state has zero located facilities — the
claimed identity fails. -/
theorem missing_gap_claim_cex :
    invSum [("PA", 10)] -
        ∑ rc ∈ gridCells 1 1,
          yearGrid 1 1 ⟨1, 0, -1, 0⟩ [("PA", 10)]
            [⟨"PA", 1, some ⟨0, 0⟩⟩, ⟨"PA", 1, none⟩] rc ≠
      noLocatedSum [("PA", 10)]
        [⟨"PA", 1, some ⟨0, 0⟩⟩, ⟨"PA", 1, none⟩] := by
  have hcells : gridCells 1 1 = {((0 : ℤ), (0 : ℤ))} := by
    unfold gridCells
    norm_num
  have hcell : cellOf ⟨1, 0, -1, 0⟩ ⟨0, 0⟩ = ((0 : ℤ), (0 : ℤ)) := by
    norm_num [cellOf, Prod.ext_iff]
  have halloc : allocatedVal [("PA", 10)]
      [⟨"PA", 1, some ⟨0, 0⟩⟩, ⟨"PA", 1, none⟩]
      ⟨"PA", 1, some ⟨0, 0⟩⟩ = 5 := by
    unfold allocatedVal stateFacs
    simp [List.find?, List.filter]
    norm_num
  have hshapes : yearShapes [("PA", 10)]
      [⟨"PA", 1, some ⟨0, 0⟩⟩, ⟨"PA", 1, none⟩] =
      [(⟨0, 0⟩, 5)] := by
    unfold yearShapes
    simp only [List.filterMap_cons, List.filterMap_nil, Option.map_some',
      Option.map_none']
    rw [halloc]
  have hgridv : yearGrid 1 1 ⟨1, 0, -1, 0⟩ [("PA", 10)]
      [⟨"PA", 1, some ⟨0, 0⟩⟩, ⟨"PA", 1, none⟩] ((0 : ℤ), (0 : ℤ)) =
      5 := by
    unfold yearGrid rasterize
    rw [hshapes]
    simp only [List.foldl_cons, List.foldl_nil]
    unfold burn
    rw [hcell, if_pos (by norm_num [inGrid])]
    simp [Function.update_same]
  rw [hcells, Finset.sum_singleton, hgridv]
  have hnls : noLocatedSum [("PA", 10)]
      [⟨"PA", 1, some ⟨0, 0⟩⟩, ⟨"PA", 1, none⟩] = 0 := by
    unfold noLocatedSum stateFacs
    simp [List.filter, List.all]
  rw [hnls]
  unfold invSum
  norm_num

/-- Witness for the amended C5: state PA (total 10) has two located
facilities with values 3 and 7; state OH (total 4) has none; the gap is
exactly OH's total. -/
theorem missing_gap_explained_witness :
    invSum [("PA", 10), ("OH", 4)] -
        ∑ rc ∈ gridCells 1 1,
          yearGrid 1 1 ⟨1, 0, -1, 0⟩ [("PA", 10), ("OH", 4)]
            [⟨"PA", 3, some ⟨0, 0⟩⟩, ⟨"PA", 7, some ⟨0, 0⟩⟩] rc =
      noLocatedSum [("PA", 10), ("OH", 4)]
        [⟨"PA", 3, some ⟨0, 0⟩⟩, ⟨"PA", 7, some ⟨0, 0⟩⟩] := by
  apply missing_gap_explained
  · simp
  · intro f hf
    refine ⟨("PA", 10), by simp, ?_⟩
    rcases List.mem_cons.mp hf with rfl | hf'
    · rfl
    · rcases List.mem_cons.mp hf' with rfl | hf''
      · rfl
      · cases hf''
  · intro f hf pt hpt
    rcases List.mem_cons.mp hf with rfl | hf'
    · have hpe : (⟨0, 0⟩ : Pt) = pt := by simpa using hpt
      rw [← hpe]
      norm_num [cellOf, inGrid]
    · rcases List.mem_cons.mp hf' with rfl | hf''
      · have hpe : (⟨0, 0⟩ : Pt) = pt := by simpa using hpt
        rw [← hpe]
        norm_num [cellOf, inGrid]
      · cases hf''
  · intro p hp
    rcases List.mem_cons.mp hp with rfl | hp'
    · intro _
      constructor
      · intro f hf
        rcases List.mem_filter.mp hf with ⟨hmem, _⟩
        rcases List.mem_cons.mp hmem with rfl | hmem'
        · rfl
        · rcases List.mem_cons.mp hmem' with rfl | hmem''
          · rfl
          · cases hmem''
      · unfold stateFacs
        simp [List.filter]
        norm_num
    · rcases List.mem_cons.mp hp' with rfl | hp''
      · intro hex
        exfalso
        rcases hex with ⟨f, hf, _⟩
        rcases List.mem_filter.mp hf with ⟨hmem, hdec⟩
        have hstate : f.state_code = "OH" := of_decide_eq_true hdec
        rcases List.mem_cons.mp hmem with rfl | hmem'
        · exact absurd hstate (by decide)
        · rcases List.mem_cons.mp hmem' with rfl | hmem''
          · exact absurd hstate (by decide)
          · cases hmem''
      · cases hp''

/-- Constants of `2C2_ferroalloy_production.py` (lines 66-75). -/
def SECTOR_NAME : String := "industry"

def SOURCE_NAME : String := "ferroalloy production"

def IPCC_ID : String := "2C2"

def netcdf_title : String := "EPA methane emissions from " ++ SOURCE_NAME

def netcdf_description : String :=
  "Gridded EPA Inventory - " ++ SECTOR_NAME ++ " - " ++ SOURCE_NAME ++
    " - IPCC Source Category " ++ IPCC_ID

/-- Attributes attached to the NetCDF artifact by `write_ncdf_output`. -/
structure NcdfAttrs where
  title : String
  description : String
  year : String
  units : String
deriving DecidableEq

/-- Attribute-building behaviour of `write_ncdf_output(raster_dict,
dst_path, description, title, units="moleccm-2s-1")` in `gch4i/utils.py`
(lines 50-102): the `title` attribute is the `title` parameter, the
`description` attribute the `description` parameter, `year` is
`f"{min(year_list)}-{max(year_list)}"` (failing on an empty dict, modelled
as `none`). -/
def write_ncdf_output (year_list : List Int) (description : String)
    (title : String) (units : String) : Option NcdfAttrs :=
  match year_list.minimum?, year_list.maximum? with
  | some lo, some hi =>
      some ⟨title, description, toString lo ++ "-" ++ toString hi, units⟩
  | _, _ => none

/-- The call at lines 602-607 of `2C2_ferroalloy_production.py`: the
positional arguments after the dict and path are `netcdf_title,
netcdf_description` — in that order — against the parameter order
`description, title`. -/
def ferro_ncdf_attrs (year_list : List Int) : Option NcdfAttrs :=
  write_ncdf_output year_list netcdf_title netcdf_description "moleccm-2s-1"

/-- C6: the produced artifact's `title` attribute is the declared
description string and its `description` attribute is the declared title
string — the two positional arguments of the call are swapped, so the
claimed metadata assignment fails. -/
theorem ncdf_title_description_swapped :
    ∃ a : NcdfAttrs, ferro_ncdf_attrs [2012, 2013] = some a ∧
      a.title = netcdf_description ∧ a.description = netcdf_title ∧
      a.title ≠ netcdf_title ∧ a.description ≠ netcdf_description := by
  refine ⟨⟨netcdf_description, netcdf_title, "2012-2013", "moleccm-2s-1"⟩,
    ?_, rfl, rfl, by decide, by decide⟩
  rfl

/-- Python whitespace class of the regex `\s` (ASCII fragment). -/
def isSpaceChar (c : Char) : Bool :=
  c = ' ' || c = '\t' || c = '\n' || c = '\r' || c = '\x0b' || c = '\x0c'

/-- The regex substitution of `.str.replace` in `name_formatter`: each
maximal whitespace run becomes one space.  The boolean argument records
whether the previous character was whitespace. -/
def collapseWs : Bool → List Char → List Char
  | _, [] => []
  | prevWs, c :: rest =>
      if isSpaceChar c then
        if prevWs then collapseWs true rest
        else ' ' :: collapseWs true rest
      else c :: collapseWs false rest

/-- Keep-class of the character-class pattern in `name_formatter`: ASCII
alphanumerics, the space and the hyphen survive the removal. -/
def keepChar (c : Char) : Bool :=
  c.isAlpha || c.isDigit || c = ' ' || c = '-'

/-- The `name_formatter` of `gch4i/utils.py` (lines 105-120) on the ASCII
fragment: `casefold` (modelled as ASCII lowercasing), the whitespace-run
substitution of `.str.replace`, then the `Series.replace(..., "",
regex=True)` call, which pandas applies per element as a regex `sub` — a
substring replacement deleting every character outside the keep-class. -/
def name_formatter (col : List String) : List String :=
  col.map fun s =>
    String.mk ((collapseWs false (s.data.map Char.toLower)).filter keepChar)

/-- C10 counterexample: the claim predicts that the trailing period of
`"Bear  Metallurgical Co."` is retained (whole-value replacement), but the
code removes it (substring replacement), besides casefolding and collapsing
the double space. -/
theorem name_formatter_claim_cex :
    name_formatter ["Bear  Metallurgical Co."] =
        ["bear metallurgical co"] ∧
      ("bear metallurgical co" : String) ≠ "bear metallurgical co." := by
  exact ⟨by decide, by decide⟩

/-- Lowercasing never yields an uppercase letter. -/
lemma toLower_not_upper (c : Char) : c.toLower.isUpper = false := by
  have hsplit : c.toLower = (if c.toNat ≥ 65 ∧ c.toNat ≤ 90
      then Char.ofNat (c.toNat + 32) else c) := rfl
  rw [hsplit]
  by_cases h : c.toNat ≥ 65 ∧ c.toNat ≤ 90
  · rw [if_pos h]
    obtain ⟨h1, h2⟩ := h
    generalize Char.toNat c = n at h1 h2
    interval_cases n <;> decide
  · rw [if_neg h]
    by_contra hcon
    have hup : c.isUpper = true := by
      revert hcon
      cases c.isUpper <;> simp
    unfold Char.isUpper at hup
    rw [Bool.and_eq_true] at hup
    obtain ⟨hu1, hu2⟩ := hup
    exact h ⟨UInt32.le_toNat_of_le (by decide) (of_decide_eq_true hu1),
      UInt32.toNat_le_of_le (by decide) (of_decide_eq_true hu2)⟩

/-- After a whitespace character was just consumed, the collapsed text
cannot begin with a whitespace character. -/
lemma collapseWs_true_head (l : List Char) :
    ∀ d ∈ (collapseWs true l).head?, isSpaceChar d = false := by
  induction l with
  | nil => intro d hd; simp [collapseWs] at hd
  | cons c rest ih =>
      by_cases hc : isSpaceChar c
      · simpa [collapseWs, hc] using ih
      · intro d hd
        simp [collapseWs, hc] at hd
        rw [← hd]
        exact eq_false_of_ne_true hc

/-- The collapsed text has no two adjacent whitespace characters. -/
lemma collapseWs_chain (l : List Char) : ∀ b : Bool,
    List.Chain' (fun x y => (isSpaceChar x && isSpaceChar y) = false)
      (collapseWs b l) := by
  induction l with
  | nil => intro b; simp [collapseWs]
  | cons c rest ih =>
      intro b
      by_cases hc : isSpaceChar c
      · cases b with
        | true => simpa [collapseWs, hc] using ih true
        | false =>
            rw [show collapseWs false (c :: rest) = ' ' :: collapseWs true rest
              from by simp [collapseWs, hc]]
            rw [List.chain'_cons']
            refine ⟨?_, ih true⟩
            intro y hy
            rw [collapseWs_true_head rest y hy, Bool.and_false]
      · rw [show collapseWs b (c :: rest) = c :: collapseWs false rest
          from by simp [collapseWs, hc]]
        rw [List.chain'_cons']
        refine ⟨?_, ih false⟩
        intro y _
        rw [eq_false_of_ne_true hc, Bool.false_and]

/-- Every whitespace character surviving the collapse is a plain space. -/
lemma collapseWs_space_mem (l : List Char) : ∀ (b : Bool), ∀ c ∈ collapseWs b l,
    isSpaceChar c = true → c = ' ' := by
  induction l with
  | nil => intro b c hc; simp [collapseWs] at hc
  | cons a rest ih =>
      intro b c hc hsp
      by_cases ha : isSpaceChar a
      · cases b with
        | true =>
            rw [show collapseWs true (a :: rest) = collapseWs true rest
              from by simp [collapseWs, ha]] at hc
            exact ih true c hc hsp
        | false =>
            rw [show collapseWs false (a :: rest) =
                ' ' :: collapseWs true rest from by simp [collapseWs, ha]] at hc
            rcases List.mem_cons.mp hc with rfl | hc'
            · rfl
            · exact ih true c hc' hsp
      · rw [show collapseWs b (a :: rest) = a :: collapseWs false rest
          from by simp [collapseWs, ha]] at hc
        rcases List.mem_cons.mp hc with rfl | hc'
        · exact absurd hsp (by rw [eq_false_of_ne_true ha]; simp)
        · exact ih false c hc' hsp

/-- The collapse changes nothing but whitespace: the non-whitespace content
is preserved. -/
lemma collapseWs_filter_nonspace (l : List Char) : ∀ b : Bool,
    (collapseWs b l).filter (fun c => !isSpaceChar c) =
      l.filter (fun c => !isSpaceChar c) := by
  induction l with
  | nil => intro b; rfl
  | cons c rest ih =>
      intro b
      by_cases hc : isSpaceChar c
      · have hcf : (!isSpaceChar c) = false := by rw [hc]; rfl
        cases b with
        | true =>
            rw [show collapseWs true (c :: rest) = collapseWs true rest
              from by simp [collapseWs, hc]]
            rw [ih true, List.filter_cons, hcf]
            simp
        | false =>
            rw [show collapseWs false (c :: rest) =
                ' ' :: collapseWs true rest from by simp [collapseWs, hc]]
            rw [List.filter_cons, List.filter_cons, hcf]
            simp only [Bool.false_eq_true, if_false]
            rw [show (!isSpaceChar ' ') = false from by decide]
            simp only [Bool.false_eq_true, if_false]
            exact ih true
      · have hcf : (!isSpaceChar c) = true := by
          rw [eq_false_of_ne_true hc]; rfl
        rw [show collapseWs b (c :: rest) = c :: collapseWs false rest
          from by simp [collapseWs, hc]]
        rw [List.filter_cons, List.filter_cons, hcf]
        simp only [if_true]
        rw [ih false]

/-- Characters of the collapsed text: an inserted space or a character of
the input. -/
lemma collapseWs_mem (l : List Char) : ∀ (b : Bool), ∀ c ∈ collapseWs b l,
    c = ' ' ∨ c ∈ l := by
  induction l with
  | nil => intro b c hc; simp [collapseWs] at hc
  | cons a rest ih =>
      intro b c hc
      by_cases ha : isSpaceChar a
      · cases b with
        | true =>
            rw [show collapseWs true (a :: rest) = collapseWs true rest
              from by simp [collapseWs, ha]] at hc
            rcases ih true c hc with h | h
            · exact Or.inl h
            · exact Or.inr (List.mem_cons_of_mem a h)
        | false =>
            rw [show collapseWs false (a :: rest) =
                ' ' :: collapseWs true rest from by simp [collapseWs, ha]] at hc
            rcases List.mem_cons.mp hc with rfl | hc'
            · exact Or.inl rfl
            · rcases ih true c hc' with h | h
              · exact Or.inl h
              · exact Or.inr (List.mem_cons_of_mem a h)
      · rw [show collapseWs b (a :: rest) = a :: collapseWs false rest
          from by simp [collapseWs, ha]] at hc
        rcases List.mem_cons.mp hc with rfl | hc'
        · exact Or.inr (List.mem_cons_self c rest)
        · rcases ih false c hc' with h | h
          · exact Or.inl h
          · exact Or.inr (List.mem_cons_of_mem a h)

/-- C10 (amended): `name_formatter` keeps element count; every character of
every output element lies in the keep-class `[a-zA-Z0-9 -]` and is not an
uppercase letter (casefolding); and for each input element the
whitespace-collapse stage leaves no two adjacent whitespace characters,
turns every surviving whitespace character into a plain space, and keeps
the non-whitespace content unchanged — the output element being exactly the
keep-class filter of that collapsed casefolded text. -/
theorem name_formatter_amended (col : List String) :
    (name_formatter col).length = col.length ∧
      (∀ s ∈ name_formatter col, ∀ c ∈ s.data,
        keepChar c = true ∧ c.isUpper = false) ∧
      (∀ s ∈ col,
        List.Chain' (fun x y => (isSpaceChar x && isSpaceChar y) = false)
          (collapseWs false (s.data.map Char.toLower)) ∧
        (∀ c ∈ collapseWs false (s.data.map Char.toLower),
          isSpaceChar c = true → c = ' ') ∧
        (collapseWs false (s.data.map Char.toLower)).filter
            (fun c => !isSpaceChar c) =
          (s.data.map Char.toLower).filter (fun c => !isSpaceChar c) ∧
        String.mk ((collapseWs false (s.data.map Char.toLower)).filter
          keepChar) ∈ name_formatter col) := by
  refine ⟨?_, ?_, ?_⟩
  · unfold name_formatter
    exact List.length_map col _
  · intro s hs c hc
    rcases List.mem_map.mp hs with ⟨x, _, rfl⟩
    have hcf : c ∈ (collapseWs false (x.data.map Char.toLower)).filter
        keepChar := hc
    refine ⟨(List.mem_filter.mp hcf).2, ?_⟩
    have hcc := (List.mem_filter.mp hcf).1
    rcases collapseWs_mem _ false c hcc with rfl | hml
    · decide
    · rcases List.mem_map.mp hml with ⟨y, _, rfl⟩
      exact toLower_not_upper y
  · intro s hs
    refine ⟨collapseWs_chain _ false, collapseWs_space_mem _ false,
      collapseWs_filter_nonspace _ false, ?_⟩
    unfold name_formatter
    exact List.mem_map_of_mem _ hs

/-- Witness for the amended C10 on a string with punctuation, uppercase and
a tab, instantiated at its formatted output `"bear metallurgical  co"` and
the character `b`. -/
theorem name_formatter_amended_witness :
    (name_formatter ["Bear\tMetallurgical & Co."]).length = 1 ∧
      keepChar 'b' = true ∧ Char.isUpper 'b' = false ∧
      List.Chain' (fun x y => (isSpaceChar x && isSpaceChar y) = false)
        (collapseWs false
          (("Bear\tMetallurgical & Co." : String).data.map Char.toLower)) ∧
      String.mk ((collapseWs false
          (("Bear\tMetallurgical & Co." : String).data.map
            Char.toLower)).filter keepChar) ∈
        name_formatter ["Bear\tMetallurgical & Co."] := by
  have h := name_formatter_amended ["Bear\tMetallurgical & Co."]
  obtain ⟨h1, h2, h3⟩ := h
  have hb := h2 "bear metallurgical  co" (by decide) 'b' (by decide)
  have hcol := h3 "Bear\tMetallurgical & Co." (by decide)
  exact ⟨by rw [h1]; rfl, hb.1, hb.2, hcol.1, hcol.2.2.2⟩

end Gepa
